import Mathlib

/-!
# Verification of the snd-lang lexical front end

A shallow embedding of the repository's lexer (`src/lexer.rs`), symbol
interner (`src/util.rs`) and location resolver (`src/context.rs`), with
theorems settling the specification's claims about them.

Rust `&'static str` values produced by `Box::leak` are modelled by pairing
the string content with an allocation identifier (a natural number drawn
from a monotone counter in the lexer state): each call of `leak` yields a
fresh identifier, exactly as each call of `Box::leak` yields a fresh
allocation.  Machine integers (`i64`) are modelled as `Int` with the
overflow behaviour of `str::parse::<i64>` made explicit via `Option`.
Panics (`unwrap` failures) are modelled with `Except Unit`.
-/

namespace SndLang

/-- Byte length of a character sequence under UTF-8, as Rust's `str::len`. -/
def byteLen (cs : List Char) : Nat :=
  cs.foldl (fun n c => n + c.utf8Size) 0

/-- Rust `char::is_whitespace`: the Unicode `White_Space` property. -/
def rustIsWhitespace (c : Char) : Bool :=
  let n := c.toNat
  n == 0x09 || n == 0x0A || n == 0x0B || n == 0x0C || n == 0x0D ||
  n == 0x20 || n == 0x85 || n == 0xA0 || n == 0x1680 ||
  (0x2000 ≤ n && n ≤ 0x200A) ||
  n == 0x2028 || n == 0x2029 || n == 0x202F || n == 0x205F || n == 0x3000

/-- Numeric value of a decimal digit string, as accumulated by Rust's
integer parser (`fold a*10 + d`). -/
def natOfDigits (cs : List Char) : Nat :=
  cs.foldl (fun a c => a * 10 + (c.toNat - 48)) 0

/-- `i64::MAX`. -/
def i64Max : Nat := 9223372036854775807

/-- Rust `text.parse::<i64>()` restricted to its call site in `push_accum`,
where `text` is non-empty and all decimal digits (guarded by `is_int`):
succeeds with the decimal value when it fits in an `i64`, fails (panic at
the `unwrap`) otherwise. -/
def parseI64 (s : String) : Option Int :=
  if s.data = [] then none
  else if natOfDigits s.data ≤ i64Max then some (natOfDigits s.data : Int)
  else none

/-- `TokenKind` from `src/lexer.rs`.  `ident` and `keyword` carry, besides
their text, the allocation identifier of the `&'static str` leaked for them
in `push_accum`. -/
inductive TokenKind where
  | ident (s : String) (ref : Nat)
  | keyword (s : String) (ref : Nat)
  | lparen
  | rparen
  | lbrace
  | rbrace
  | colon
  | comma
  | pipe
  | fatArrow
  | intLit (n : Int)
  | boolLit (b : Bool)
  | none
deriving DecidableEq, Repr

/-- `TokenKind::length` from `src/lexer.rs`: the classified byte length used
for offset bookkeeping. -/
def TokenKind.length : TokenKind → Nat
  | .ident s _ => byteLen s.data
  | .keyword s _ => byteLen s.data
  | .fatArrow => 2
  | .boolLit b => byteLen (toString b).data
  | .intLit n => byteLen (toString n).data
  | _ => 1

/-- `Token` from `src/lexer.rs` (the `path` and `src` fields, identical for
every token of one run, are kept outside the structure). -/
structure Token where
  kind : TokenKind
  start : Nat
  len : Nat
deriving DecidableEq, Repr

/-- `get_line_info` from `src/lexer.rs` (and `Context::get_line_info` from
`src/context.rs`, which is the same code): 1-based line and column of a byte
offset, found by scanning from the start and counting newlines.  `i` is the
running byte offset of the iteration (Rust `char_indices`). -/
def getLineInfoGo (index : Nat) : List Char → Nat → Nat → Nat → Nat × Nat
  | [], _, lineNumber, lineStart => (lineNumber, index - lineStart + 1)
  | c :: cs, i, lineNumber, lineStart =>
    if i ≥ index then (lineNumber, index - lineStart + 1)
    else if c = '\n' then getLineInfoGo index cs (i + c.utf8Size) (lineNumber + 1) (i + 1)
    else getLineInfoGo index cs (i + c.utf8Size) lineNumber lineStart

def get_line_info (s : List Char) (index : Nat) : Nat × Nat :=
  getLineInfoGo index s 0 1 0

/-- `is_keyword` from `src/lexer.rs`. -/
def is_keyword (s : String) : Bool :=
  s == "fn" || s == "let" || s == "match" || s == "cond" || s == "itself"

/-- Rust `char::is_digit(10)`: a decimal digit `'0'..='9'`. -/
def rustIsDigit (c : Char) : Bool :=
  48 ≤ c.toNat && c.toNat ≤ 57

/-- `is_int` from `src/lexer.rs`: every character is a decimal digit. -/
def is_int (s : String) : Bool :=
  s.data.all (fun c => rustIsDigit c)

/-- `is_bool` from `src/lexer.rs`. -/
def is_bool (s : String) : Bool :=
  s == "true" || s == "false"

/-- The lexer state: running byte position, accumulator, emitted tokens, and
the allocation counter modelling `Box::leak` (see module comment). -/
structure LexState where
  pos : Nat
  accum : List Char
  tokens : List Token
  nextRef : Nat
deriving Repr

def initLexState : LexState :=
  { pos := 0, accum := [], tokens := [], nextRef := 0 }

/-- The unconditional part of `Lexer::push`: record the token at the current
position with its classified length, and advance the position by that
length. -/
def pushRaw (k : TokenKind) (st : LexState) : LexState :=
  { st with
    tokens := st.tokens ++ [{ kind := k, start := st.pos, len := k.length }]
    pos := st.pos + k.length }

/-- `Lexer::push_accum` from `src/lexer.rs`: if the accumulator is
non-empty, leak its text (one fresh allocation), classify it with the
precedence keyword > integer > boolean > identifier, clear the accumulator
and push the token.  The `unwrap` on integer parsing is the one possible
panic, modelled as `Except.error`. -/
def push_accum (st : LexState) : Except Unit LexState :=
  if st.accum = [] then .ok st
  else
    let text := String.mk st.accum
    let r := st.nextRef
    let st' : LexState := { st with accum := [], nextRef := r + 1 }
    if is_keyword text then .ok (pushRaw (.keyword text r) st')
    else if is_int text then
      match parseI64 text with
      | some n => .ok (pushRaw (.intLit n) st')
      | Option.none => .error ()
    else if is_bool text then .ok (pushRaw (.boolLit (text == "true")) st')
    else .ok (pushRaw (.ident text r) st')

/-- `Lexer::push` from `src/lexer.rs`: flush the accumulator, then push the
given token. -/
def push (k : TokenKind) (st : LexState) : Except Unit LexState := do
  let st' ← push_accum st
  .ok (pushRaw k st')

/-- The scanning loop of `Lexer::lex` from `src/lexer.rs`, one character at
a time over the remaining input.  The state is destructured into its fields
so that unchanged fields are passed through unmodified. -/
def lexLoop : List Char → LexState → Except Unit LexState
  | [], st => .ok st
  | c :: cs, ⟨pos, accum, tokens, nextRef⟩ =>
    let st : LexState := ⟨pos, accum, tokens, nextRef⟩
    if rustIsWhitespace c then do lexLoop cs (← push .none st)
    else if c = '(' then do lexLoop cs (← push .lparen st)
    else if c = ')' then do lexLoop cs (← push .rparen st)
    else if c = '{' then do lexLoop cs (← push .lbrace st)
    else if c = '}' then do lexLoop cs (← push .rbrace st)
    else if c = ':' then do lexLoop cs (← push .colon st)
    else if c = ',' then do lexLoop cs (← push .comma st)
    else if c = '|' then do lexLoop cs (← push .pipe st)
    else if c = '=' then
      match cs with
      | [] => do lexLoop [] (← push .none st)
      | o :: cs' =>
        if o = '>' then do lexLoop cs' (← push .fatArrow st)
        else if o = ' ' then do
          lexLoop cs' (← push .none ⟨pos, accum ++ ['='], tokens, nextRef⟩)
        else lexLoop cs' ⟨pos, accum ++ ['=', o], tokens, nextRef⟩
    else lexLoop cs ⟨pos, accum ++ [c], tokens, nextRef⟩

/-- `Lexer::lex` from `src/lexer.rs`: run the scan over the whole source and
strip the discardable whitespace tokens. -/
def lex (src : String) : Except Unit (List Token) :=
  (lexLoop src.data initLexState).map
    (fun st => st.tokens.filter (fun t => decide (t.kind ≠ TokenKind.none)))

/-- The allocation identifier stored in a token kind, when it carries leaked
text (identifier and keyword cases). -/
def refOf : TokenKind → Option Nat
  | .ident _ r => some r
  | .keyword _ r => some r
  | _ => Option.none

/-- The allocation identifiers carried by a token list, in order. -/
def refs (ts : List Token) : List Nat :=
  ts.filterMap (fun t => refOf t.kind)

/-- The text carried by an identifier or keyword token kind. -/
def tokenText : TokenKind → Option String
  | .ident s _ => some s
  | .keyword s _ => some s
  | _ => Option.none

/-- The emitted token list is chained from position `p` to position `q`:
each token starts where the previous one ended, its stored length is its
kind's classified length, and the running position advances by exactly that
length. -/
def chained : Nat → List Token → Nat → Prop
  | p, [], q => p = q
  | p, t :: ts, q => t.start = p ∧ t.len = t.kind.length ∧ chained (p + t.len) ts q

def decChained : (ts : List Token) → (p q : Nat) → Decidable (chained p ts q)
  | [], p, q => by unfold chained; exact inferInstance
  | t :: ts, p, q => by
      unfold chained
      exact @instDecidableAnd _ _ _ (@instDecidableAnd _ _ _ (decChained ts _ _))

instance (p q : Nat) (ts : List Token) : Decidable (chained p ts q) :=
  decChained ts p q

/-- The master invariant of the scanning loop: tokens are chained from
offset 0 to the current position; the allocation identifiers in the token
list are strictly increasing and below the allocation counter; every integer
literal is non-negative. -/
structure Inv (st : LexState) : Prop where
  chain : chained 0 st.tokens st.pos
  refsLt : ∀ r ∈ refs st.tokens, r < st.nextRef
  refsSorted : List.Pairwise (· < ·) (refs st.tokens)
  intNonneg : ∀ t ∈ st.tokens, ∀ n : Int, t.kind = .intLit n → 0 ≤ n

/-- Leading digit count of a character sequence. -/
def ldc : List Char → Nat
  | [] => 0
  | c :: cs => if rustIsDigit c then ldc cs + 1 else 0

/-- Every run of consecutive decimal digits in the sequence has length at
most 18 (so its value is below `10^18 ≤ i64::MAX`). -/
def runsOkB : List Char → Bool
  | [] => true
  | c :: cs => decide (ldc (c :: cs) ≤ 18) && runsOkB cs

/-- Strip one trailing carriage return, as Rust `str::lines` does to each
line terminated by `\r\n`. -/
def stripCR (cs : List Char) : List Char :=
  if cs.getLast? = some '\x0d' then cs.dropLast else cs

/-- Rust `str::lines`, accumulating the current line in `cur`. -/
def rustLinesGo : List Char → List Char → List (List Char)
  | cur, [] => if cur = [] then [] else [cur]
  | cur, c :: rest =>
    if c = '\n' then stripCR cur :: rustLinesGo [] rest
    else rustLinesGo (cur ++ [c]) rest

def rustLines (cs : List Char) : List (List Char) :=
  rustLinesGo [] cs

/-- `Token::in_context` from `src/lexer.rs` (the same code as
`Context::in_context` in `src/context.rs`): the `path:line:column` header,
the verbatim source line containing the token's offset, and a line of
`column - 1` spaces followed by one caret per byte of the stored length.
The `unwrap` on the line lookup is modelled by `Option`. -/
def in_context (path : String) (src : String) (t : Token) : Option String :=
  let li := get_line_info src.data t.start
  ((rustLines src.data).get? (li.1 - 1)).map fun lineSrc =>
    path ++ ":" ++ toString li.1 ++ ":" ++ toString li.2 ++ "\n" ++
    String.mk lineSrc ++ "\n" ++
    String.mk (List.replicate (li.2 - 1) ' ') ++
    String.mk (List.replicate t.len '^')

/-- `Symbol` from `src/util.rs`: interned identifier handle. -/
structure Symbol where
  name : String
  index : Nat
deriving DecidableEq, Repr

/-- Index of the first occurrence of `s` in the interner's vector; models
the `SYMBOLS_MAP` lookup (the map always sends a stored text to the symbol
holding its position in the vector, since entries are inserted exactly when
absent). -/
def lookupIdx : List String → String → Option Nat
  | [], _ => Option.none
  | t :: ts, s => if t = s then some 0 else (lookupIdx ts s).map (· + 1)

/-- `Symbol::new` from `src/util.rs`: return the existing symbol for `s` if
present, otherwise append `s` to the vector and return a symbol whose index
is the previous length.  The interner state is the vector of stored
texts. -/
def intern (syms : List String) (s : String) : Symbol × List String :=
  match lookupIdx syms s with
  | some i => (⟨s, i⟩, syms)
  | Option.none => (⟨s, syms.length⟩, syms ++ [s])

/-- Run a sequence of interning calls, returning the produced symbols in
order together with the final interner state. -/
def internChain : List String → List String → List Symbol × List String
  | syms, [] => ([], syms)
  | syms, s :: ss =>
    let p := intern syms s
    let q := internChain p.2 ss
    (p.1 :: q.1, q.2)

/-- Intern every text of the list in order, starting from the empty global
table, and collect the returned symbols. -/
def internAll (texts : List String) : List Symbol :=
  (internChain [] texts).1

/-!
## Theorems

Helper lemmas first: preservation of the master invariant `Inv` along the
scanning loop.
-/

theorem bind_ok {α β : Type} {ma : Except Unit α} {f : α → Except Unit β} {b : β}
    (h : ma >>= f = .ok b) : ∃ a, ma = .ok a ∧ f a = .ok b := by
  cases ma with
  | ok a => exact ⟨a, rfl, h⟩
  | error e => simp [Bind.bind, Except.bind] at h

theorem chained_append {p q : Nat} {ts : List Token} (k : TokenKind)
    (h : chained p ts q) :
    chained p (ts ++ [{ kind := k, start := q, len := k.length }]) (q + k.length) := by
  induction ts generalizing p with
  | nil => simp only [chained] at h; subst h; exact ⟨rfl, rfl, rfl⟩
  | cons t ts ih =>
    obtain ⟨h1, h2, h3⟩ := h
    exact ⟨h1, h2, ih h3⟩

theorem chained_len {p q : Nat} {ts : List Token} (h : chained p ts q) :
    ∀ t ∈ ts, t.len = t.kind.length := by
  induction ts generalizing p with
  | nil => intro t ht; cases ht
  | cons u us ih =>
    obtain ⟨h1, h2, h3⟩ := h
    intro t ht
    rcases List.mem_cons.mp ht with rfl | hm
    · exact h2
    · exact ih h3 t hm

theorem refs_append (ts : List Token) (t : Token) :
    refs (ts ++ [t]) = refs ts ++ (refOf t.kind).toList := by
  simp [refs, List.filterMap_append, List.filterMap]
  cases h : refOf t.kind <;> simp [h, Option.toList]

theorem parseI64_nonneg {s : String} {n : Int} (h : parseI64 s = some n) : 0 ≤ n := by
  unfold parseI64 at h
  split at h
  · exact absurd h (by simp)
  · split at h
    · obtain rfl : (natOfDigits s.data : Int) = n := by injection h
      exact Int.ofNat_nonneg _
    · exact absurd h (by simp)

theorem inv_bump {st : LexState} (a : List Char) (h : Inv st) :
    Inv { st with accum := a, nextRef := st.nextRef + 1 } :=
  ⟨h.chain, fun r hm => Nat.lt_succ_of_lt (h.refsLt r hm), h.refsSorted, h.intNonneg⟩

theorem inv_accum {p : Nat} {a : List Char} {t : List Token} {n : Nat} (a' : List Char)
    (h : Inv ⟨p, a, t, n⟩) : Inv ⟨p, a', t, n⟩ :=
  ⟨h.chain, h.refsLt, h.refsSorted, h.intNonneg⟩

theorem inv_pushRaw_none {st : LexState} {k : TokenKind} (hInv : Inv st)
    (hr : refOf k = Option.none) (hn : ∀ n : Int, k = .intLit n → 0 ≤ n) :
    Inv (pushRaw k st) := by
  refine ⟨?_, ?_, ?_, ?_⟩
  · exact chained_append k hInv.chain
  · intro r hm
    rw [show (pushRaw k st).tokens
          = st.tokens ++ [{ kind := k, start := st.pos, len := k.length }] from rfl,
        refs_append, hr] at hm
    simp at hm
    exact hInv.refsLt r hm
  · rw [show (pushRaw k st).tokens
          = st.tokens ++ [{ kind := k, start := st.pos, len := k.length }] from rfl,
        refs_append, hr]
    simpa using hInv.refsSorted
  · intro t ht n hk
    rw [show (pushRaw k st).tokens
          = st.tokens ++ [{ kind := k, start := st.pos, len := k.length }] from rfl] at ht
    rcases List.mem_append.mp ht with hm | hm
    · exact hInv.intNonneg t hm n hk
    · simp at hm
      subst hm
      exact hn n hk

theorem inv_pushRaw_ref {st : LexState} {k : TokenKind} (hInv : Inv st)
    (hr : refOf k = some st.nextRef) :
    Inv (pushRaw k { st with accum := [], nextRef := st.nextRef + 1 }) := by
  refine ⟨?_, ?_, ?_, ?_⟩
  · exact chained_append k hInv.chain
  · intro r hm
    rw [show (pushRaw k { st with accum := [], nextRef := st.nextRef + 1 }).tokens
          = st.tokens ++ [{ kind := k, start := st.pos, len := k.length }] from rfl,
        refs_append, hr] at hm
    simp at hm
    rcases hm with hm | rfl
    · exact Nat.lt_succ_of_lt (hInv.refsLt r hm)
    · exact Nat.lt_succ_self _
  · rw [show (pushRaw k { st with accum := [], nextRef := st.nextRef + 1 }).tokens
          = st.tokens ++ [{ kind := k, start := st.pos, len := k.length }] from rfl,
        refs_append, hr]
    rw [List.pairwise_append]
    refine ⟨hInv.refsSorted, by simp, ?_⟩
    intro a ha b hb
    simp [Option.toList] at hb
    subst hb
    exact hInv.refsLt a ha
  · intro t ht n hk
    rw [show (pushRaw k { st with accum := [], nextRef := st.nextRef + 1 }).tokens
          = st.tokens ++ [{ kind := k, start := st.pos, len := k.length }] from rfl] at ht
    rcases List.mem_append.mp ht with hm | hm
    · exact hInv.intNonneg t hm n hk
    · simp at hm
      subst hm
      rw [show ({ kind := k, start := st.pos, len := k.length } : Token).kind = k from rfl] at hk
      rw [hk] at hr
      exact absurd hr (by simp [refOf])

theorem inv_push_accum {st st₁ : LexState} (hInv : Inv st)
    (h : push_accum st = .ok st₁) : Inv st₁ := by
  unfold push_accum at h
  split at h
  · cases h; exact hInv
  · dsimp only at h
    split at h
    · cases h
      exact inv_pushRaw_ref hInv rfl
    · split at h
      · split at h
        · cases h
          rename_i heq
          refine inv_pushRaw_none (inv_bump [] hInv) rfl ?_
          intro n' hk
          injection hk with h'
          subst h'
          exact parseI64_nonneg heq
        · cases h
      · split at h
        · cases h
          exact inv_pushRaw_none (inv_bump [] hInv) rfl (fun n hk => nomatch hk)
        · cases h
          exact inv_pushRaw_ref hInv rfl

theorem inv_push {st st₁ : LexState} {k : TokenKind}
    (h : push k st = .ok st₁) (hInv : Inv st)
    (hr : refOf k = Option.none) (hn : ∀ n : Int, k = .intLit n → 0 ≤ n) : Inv st₁ := by
  unfold push at h
  obtain ⟨st', hpa, hok⟩ := bind_ok h
  cases hok
  exact inv_pushRaw_none (inv_push_accum hInv hpa) hr hn

theorem lexLoop_inv (cs : List Char) (st : LexState) :
    Inv st → ∀ st', lexLoop cs st = .ok st' → Inv st' := by
  induction cs, st using lexLoop.induct with
  | case1 st =>
    intro hInv st' he
    unfold lexLoop at he
    cases he
    exact hInv
  | case2 c cs pos accum tokens nextRef hw ih =>
    intro hInv st' he
    unfold lexLoop at he
    rw [if_pos hw] at he
    obtain ⟨st₁, hp, hrec⟩ := bind_ok he
    exact ih st₁ (inv_push hp hInv rfl (fun n hk => nomatch hk)) st' hrec
  | case3 cs pos accum tokens nextRef h1 ih =>
    intro hInv st' he
    unfold lexLoop at he
    repeat first | rw [if_neg (by decide)] at he | rw [if_pos (by decide)] at he
    obtain ⟨st₁, hp, hrec⟩ := bind_ok he
    exact ih st₁ (inv_push hp hInv rfl (fun n hk => nomatch hk)) st' hrec
  | case4 cs pos accum tokens nextRef h1 h2 ih =>
    intro hInv st' he
    unfold lexLoop at he
    repeat first | rw [if_neg (by decide)] at he | rw [if_pos (by decide)] at he
    obtain ⟨st₁, hp, hrec⟩ := bind_ok he
    exact ih st₁ (inv_push hp hInv rfl (fun n hk => nomatch hk)) st' hrec
  | case5 cs pos accum tokens nextRef h1 h2 h3 ih =>
    intro hInv st' he
    unfold lexLoop at he
    repeat first | rw [if_neg (by decide)] at he | rw [if_pos (by decide)] at he
    obtain ⟨st₁, hp, hrec⟩ := bind_ok he
    exact ih st₁ (inv_push hp hInv rfl (fun n hk => nomatch hk)) st' hrec
  | case6 cs pos accum tokens nextRef h1 h2 h3 h4 ih =>
    intro hInv st' he
    unfold lexLoop at he
    repeat first | rw [if_neg (by decide)] at he | rw [if_pos (by decide)] at he
    obtain ⟨st₁, hp, hrec⟩ := bind_ok he
    exact ih st₁ (inv_push hp hInv rfl (fun n hk => nomatch hk)) st' hrec
  | case7 cs pos accum tokens nextRef h1 h2 h3 h4 h5 ih =>
    intro hInv st' he
    unfold lexLoop at he
    repeat first | rw [if_neg (by decide)] at he | rw [if_pos (by decide)] at he
    obtain ⟨st₁, hp, hrec⟩ := bind_ok he
    exact ih st₁ (inv_push hp hInv rfl (fun n hk => nomatch hk)) st' hrec
  | case8 cs pos accum tokens nextRef h1 h2 h3 h4 h5 h6 ih =>
    intro hInv st' he
    unfold lexLoop at he
    repeat first | rw [if_neg (by decide)] at he | rw [if_pos (by decide)] at he
    obtain ⟨st₁, hp, hrec⟩ := bind_ok he
    exact ih st₁ (inv_push hp hInv rfl (fun n hk => nomatch hk)) st' hrec
  | case9 cs pos accum tokens nextRef h1 h2 h3 h4 h5 h6 h7 ih =>
    intro hInv st' he
    unfold lexLoop at he
    repeat first | rw [if_neg (by decide)] at he | rw [if_pos (by decide)] at he
    obtain ⟨st₁, hp, hrec⟩ := bind_ok he
    exact ih st₁ (inv_push hp hInv rfl (fun n hk => nomatch hk)) st' hrec
  | case10 pos accum tokens nextRef h1 h2 h3 h4 h5 h6 h7 h8 ih =>
    intro hInv st' he
    unfold lexLoop at he
    repeat first | rw [if_neg (by decide)] at he | rw [if_pos (by decide)] at he
    obtain ⟨st₁, hp, hrec⟩ := bind_ok he
    exact ih st₁ (inv_push hp hInv rfl (fun n hk => nomatch hk)) st' hrec
  | case11 pos accum tokens nextRef cs' h1 h2 h3 h4 h5 h6 h7 h8 ih =>
    intro hInv st' he
    unfold lexLoop at he
    repeat first | rw [if_neg (by decide)] at he | rw [if_pos (by decide)] at he
    obtain ⟨st₁, hp, hrec⟩ := bind_ok he
    exact ih st₁ (inv_push hp hInv rfl (fun n hk => nomatch hk)) st' hrec
  | case12 pos accum tokens nextRef cs' h1 h2 h3 h4 h5 h6 h7 h8 h9 ih =>
    intro hInv st' he
    unfold lexLoop at he
    repeat first | rw [if_neg (by decide)] at he | rw [if_pos (by decide)] at he
    obtain ⟨st₁, hp, hrec⟩ := bind_ok he
    exact ih st₁ (inv_push hp (inv_accum _ hInv) rfl (fun n hk => nomatch hk)) st' hrec
  | case13 pos accum tokens nextRef o cs' ho1 ho2 h1 h2 h3 h4 h5 h6 h7 h8 ih =>
    intro hInv st' he
    unfold lexLoop at he
    dsimp only at he
    repeat first | rw [if_neg (by decide)] at he | rw [if_pos (by decide)] at he
    rw [if_neg ho1, if_neg ho2] at he
    exact ih (inv_accum _ hInv) st' he
  | case14 c cs pos accum tokens nextRef h1 h2 h3 h4 h5 h6 h7 h8 h9 ih =>
    intro hInv st' he
    unfold lexLoop at he
    rw [if_neg h1, if_neg h2, if_neg h3, if_neg h4, if_neg h5, if_neg h6, if_neg h7,
        if_neg h8, if_neg h9] at he
    exact ih (inv_accum _ hInv) st' he

theorem natOfDigits_foldl_lt (cs : List Char) (a : Nat)
    (h : ∀ c ∈ cs, rustIsDigit c = true) :
    cs.foldl (fun a c => a * 10 + (c.toNat - 48)) a < (a + 1) * 10 ^ cs.length := by
  induction cs generalizing a with
  | nil => simp
  | cons c cs ih =>
    have hc : c.toNat - 48 ≤ 9 := by
      have := h c (List.mem_cons_self c cs)
      simp [rustIsDigit] at this
      omega
    have h1 := ih (a * 10 + (c.toNat - 48)) (fun d hd => h d (List.mem_cons_of_mem c hd))
    calc (c :: cs).foldl (fun a c => a * 10 + (c.toNat - 48)) a
        = cs.foldl (fun a c => a * 10 + (c.toNat - 48)) (a * 10 + (c.toNat - 48)) := rfl
      _ < (a * 10 + (c.toNat - 48) + 1) * 10 ^ cs.length := h1
      _ ≤ ((a + 1) * 10) * 10 ^ cs.length := by
          have : a * 10 + (c.toNat - 48) + 1 ≤ (a + 1) * 10 := by omega
          exact Nat.mul_le_mul_right _ this
      _ = (a + 1) * 10 ^ (c :: cs).length := by
          rw [List.length_cons, pow_succ]
          ring

theorem natOfDigits_le_i64Max (cs : List Char) (hd : ∀ c ∈ cs, rustIsDigit c = true)
    (hl : cs.length ≤ 18) : natOfDigits cs ≤ i64Max := by
  have h1 := natOfDigits_foldl_lt cs 0 hd
  have h2 : (10 : Nat) ^ cs.length ≤ 10 ^ 18 := Nat.pow_le_pow_right (by norm_num) hl
  have : natOfDigits cs < 10 ^ 18 := by
    calc natOfDigits cs < (0 + 1) * 10 ^ cs.length := h1
      _ = 10 ^ cs.length := by ring
      _ ≤ 10 ^ 18 := h2
  unfold i64Max
  norm_num at this ⊢
  omega

theorem runsOk_head {cs : List Char} (h : runsOkB cs = true) : ldc cs ≤ 18 := by
  cases cs with
  | nil => simp [ldc]
  | cons c cs =>
    unfold runsOkB at h
    rw [Bool.and_eq_true] at h
    exact of_decide_eq_true h.1

theorem runsOk_tail {c : Char} {cs : List Char} (h : runsOkB (c :: cs) = true) :
    runsOkB cs = true := by
  unfold runsOkB at h
  rw [Bool.and_eq_true] at h
  exact h.2

theorem push_accum_ok (st : LexState)
    (h : st.accum.all rustIsDigit = true → st.accum.length ≤ 18) :
    ∃ st₁, push_accum st = .ok st₁ ∧ st₁.accum = [] := by
  unfold push_accum
  split
  · rename_i hnil
    exact ⟨st, rfl, hnil⟩
  · rename_i hne
    dsimp only
    split
    · exact ⟨_, rfl, rfl⟩
    · split
      · rename_i hki hint
        have hall : st.accum.all rustIsDigit = true := by
          simpa [is_int] using hint
        have hle : st.accum.length ≤ 18 := h hall
        have hmax : natOfDigits st.accum ≤ i64Max :=
          natOfDigits_le_i64Max st.accum (by simpa [List.all_eq_true] using hall) hle
        rw [show parseI64 (String.mk st.accum) = some (natOfDigits st.accum : Int) from by
          unfold parseI64
          rw [if_neg (by simpa using hne), if_pos (by simpa using hmax)]]
        exact ⟨_, rfl, rfl⟩
      · split
        · exact ⟨_, rfl, rfl⟩
        · exact ⟨_, rfl, rfl⟩

theorem push_ok (st : LexState) (k : TokenKind)
    (h : st.accum.all rustIsDigit = true → st.accum.length ≤ 18) :
    ∃ st₁, push k st = .ok st₁ ∧ st₁.accum = [] := by
  obtain ⟨st₁, h1, h2⟩ := push_accum_ok st h
  refine ⟨pushRaw k st₁, ?_, h2⟩
  unfold push
  rw [h1]
  rfl

theorem lexLoop_total (cs : List Char) (st : LexState) :
    runsOkB cs = true →
    (st.accum.all rustIsDigit = true → st.accum.length + ldc cs ≤ 18) →
    ∃ st', lexLoop cs st = .ok st' := by
  induction cs, st using lexLoop.induct with
  | case1 st => exact fun _ _ => ⟨st, rfl⟩
  | case2 c cs pos accum tokens nextRef hw ih =>
    intro hrs hAcc
    obtain ⟨st₁, hpush, hacc⟩ := push_ok _ TokenKind.none
      (fun hall => le_trans (Nat.le_add_right _ _) (hAcc hall))
    obtain ⟨st', h'⟩ := ih st₁ (runsOk_tail hrs)
      (by rw [hacc]; intro; simpa using runsOk_head (runsOk_tail hrs))
    refine ⟨st', ?_⟩
    unfold lexLoop
    rw [if_pos hw, hpush]
    exact h'
  | case3 cs pos accum tokens nextRef h1 ih =>
    intro hrs hAcc
    obtain ⟨st₁, hpush, hacc⟩ := push_ok _ TokenKind.lparen
      (fun hall => le_trans (Nat.le_add_right _ _) (hAcc hall))
    obtain ⟨st', h'⟩ := ih st₁ (runsOk_tail hrs)
      (by rw [hacc]; intro; simpa using runsOk_head (runsOk_tail hrs))
    refine ⟨st', ?_⟩
    unfold lexLoop
    repeat first | rw [if_neg (by decide)] | rw [if_pos (by decide)]
    rw [hpush]
    exact h'
  | case4 cs pos accum tokens nextRef h1 h2 ih =>
    intro hrs hAcc
    obtain ⟨st₁, hpush, hacc⟩ := push_ok _ TokenKind.rparen
      (fun hall => le_trans (Nat.le_add_right _ _) (hAcc hall))
    obtain ⟨st', h'⟩ := ih st₁ (runsOk_tail hrs)
      (by rw [hacc]; intro; simpa using runsOk_head (runsOk_tail hrs))
    refine ⟨st', ?_⟩
    unfold lexLoop
    repeat first | rw [if_neg (by decide)] | rw [if_pos (by decide)]
    rw [hpush]
    exact h'
  | case5 cs pos accum tokens nextRef h1 h2 h3 ih =>
    intro hrs hAcc
    obtain ⟨st₁, hpush, hacc⟩ := push_ok _ TokenKind.lbrace
      (fun hall => le_trans (Nat.le_add_right _ _) (hAcc hall))
    obtain ⟨st', h'⟩ := ih st₁ (runsOk_tail hrs)
      (by rw [hacc]; intro; simpa using runsOk_head (runsOk_tail hrs))
    refine ⟨st', ?_⟩
    unfold lexLoop
    repeat first | rw [if_neg (by decide)] | rw [if_pos (by decide)]
    rw [hpush]
    exact h'
  | case6 cs pos accum tokens nextRef h1 h2 h3 h4 ih =>
    intro hrs hAcc
    obtain ⟨st₁, hpush, hacc⟩ := push_ok _ TokenKind.rbrace
      (fun hall => le_trans (Nat.le_add_right _ _) (hAcc hall))
    obtain ⟨st', h'⟩ := ih st₁ (runsOk_tail hrs)
      (by rw [hacc]; intro; simpa using runsOk_head (runsOk_tail hrs))
    refine ⟨st', ?_⟩
    unfold lexLoop
    repeat first | rw [if_neg (by decide)] | rw [if_pos (by decide)]
    rw [hpush]
    exact h'
  | case7 cs pos accum tokens nextRef h1 h2 h3 h4 h5 ih =>
    intro hrs hAcc
    obtain ⟨st₁, hpush, hacc⟩ := push_ok _ TokenKind.colon
      (fun hall => le_trans (Nat.le_add_right _ _) (hAcc hall))
    obtain ⟨st', h'⟩ := ih st₁ (runsOk_tail hrs)
      (by rw [hacc]; intro; simpa using runsOk_head (runsOk_tail hrs))
    refine ⟨st', ?_⟩
    unfold lexLoop
    repeat first | rw [if_neg (by decide)] | rw [if_pos (by decide)]
    rw [hpush]
    exact h'
  | case8 cs pos accum tokens nextRef h1 h2 h3 h4 h5 h6 ih =>
    intro hrs hAcc
    obtain ⟨st₁, hpush, hacc⟩ := push_ok _ TokenKind.comma
      (fun hall => le_trans (Nat.le_add_right _ _) (hAcc hall))
    obtain ⟨st', h'⟩ := ih st₁ (runsOk_tail hrs)
      (by rw [hacc]; intro; simpa using runsOk_head (runsOk_tail hrs))
    refine ⟨st', ?_⟩
    unfold lexLoop
    repeat first | rw [if_neg (by decide)] | rw [if_pos (by decide)]
    rw [hpush]
    exact h'
  | case9 cs pos accum tokens nextRef h1 h2 h3 h4 h5 h6 h7 ih =>
    intro hrs hAcc
    obtain ⟨st₁, hpush, hacc⟩ := push_ok _ TokenKind.pipe
      (fun hall => le_trans (Nat.le_add_right _ _) (hAcc hall))
    obtain ⟨st', h'⟩ := ih st₁ (runsOk_tail hrs)
      (by rw [hacc]; intro; simpa using runsOk_head (runsOk_tail hrs))
    refine ⟨st', ?_⟩
    unfold lexLoop
    repeat first | rw [if_neg (by decide)] | rw [if_pos (by decide)]
    rw [hpush]
    exact h'
  | case10 pos accum tokens nextRef h1 h2 h3 h4 h5 h6 h7 h8 ih =>
    intro hrs hAcc
    obtain ⟨st₁, hpush, hacc⟩ := push_ok _ TokenKind.none
      (fun hall => by
        have := hAcc hall
        rw [show ldc ['='] = 0 from by decide] at this
        omega)
    refine ⟨st₁, ?_⟩
    unfold lexLoop
    repeat first | rw [if_neg (by decide)] | rw [if_pos (by decide)]
    rw [hpush]
    rfl
  | case11 pos accum tokens nextRef cs' h1 h2 h3 h4 h5 h6 h7 h8 ih =>
    intro hrs hAcc
    obtain ⟨st₁, hpush, hacc⟩ := push_ok _ TokenKind.fatArrow
      (fun hall => le_trans (Nat.le_add_right _ _) (hAcc hall))
    obtain ⟨st', h'⟩ := ih st₁ (runsOk_tail (runsOk_tail hrs))
      (by rw [hacc]; intro; simpa using runsOk_head (runsOk_tail (runsOk_tail hrs)))
    refine ⟨st', ?_⟩
    unfold lexLoop
    repeat first | rw [if_neg (by decide)] | rw [if_pos (by decide)]
    rw [hpush]
    exact h'
  | case12 pos accum tokens nextRef cs' h1 h2 h3 h4 h5 h6 h7 h8 h9 ih =>
    intro hrs hAcc
    obtain ⟨st₁, hpush, hacc⟩ := push_ok ⟨pos, accum ++ ['='], tokens, nextRef⟩ TokenKind.none
      (by
        intro hall
        rw [List.all_append] at hall
        rw [Bool.and_eq_true] at hall
        have h61 : rustIsDigit '=' = false := by decide
        have := hall.2
        rw [List.all_cons, h61] at this
        simp at this)
    obtain ⟨st', h'⟩ := ih st₁ (runsOk_tail (runsOk_tail hrs))
      (by rw [hacc]; intro; simpa using runsOk_head (runsOk_tail (runsOk_tail hrs)))
    refine ⟨st', ?_⟩
    unfold lexLoop
    repeat first | rw [if_neg (by decide)] | rw [if_pos (by decide)]
    rw [hpush]
    exact h'
  | case13 pos accum tokens nextRef o cs' ho1 ho2 h1 h2 h3 h4 h5 h6 h7 h8 ih =>
    intro hrs hAcc
    obtain ⟨st', h'⟩ := ih (runsOk_tail (runsOk_tail hrs))
      (by
        intro hall
        rw [show (⟨pos, accum ++ ['=', o], tokens, nextRef⟩ : LexState).accum
              = accum ++ ['=', o] from rfl] at hall
        rw [List.all_append] at hall
        rw [Bool.and_eq_true] at hall
        have h61 : rustIsDigit '=' = false := by decide
        have := hall.2
        rw [List.all_cons, h61] at this
        simp at this)
    refine ⟨st', ?_⟩
    unfold lexLoop
    dsimp only
    repeat first | rw [if_neg (by decide)] | rw [if_pos (by decide)]
    rw [if_neg ho1, if_neg ho2]
    exact h'
  | case14 c cs pos accum tokens nextRef h1 h2 h3 h4 h5 h6 h7 h8 h9 ih =>
    intro hrs hAcc
    obtain ⟨st', h'⟩ := ih (runsOk_tail hrs)
      (by
        intro hall
        dsimp only at hall ⊢
        rw [List.all_append, Bool.and_eq_true] at hall
        have hc : rustIsDigit c = true := by simpa using hall.2
        have hbase := hAcc hall.1
        dsimp only at hbase
        rw [show ldc (c :: cs) = ldc cs + 1 from by simp [ldc, hc]] at hbase
        simp only [List.length_append, List.length_singleton]
        omega)
    refine ⟨st', ?_⟩
    unfold lexLoop
    rw [if_neg h1, if_neg h2, if_neg h3, if_neg h4, if_neg h5, if_neg h6, if_neg h7,
        if_neg h8, if_neg h9]
    exact h'

theorem inv_init : Inv initLexState :=
  ⟨rfl, fun r hm => by simp [refs, initLexState, List.filterMap] at hm,
   by simp [refs, initLexState, List.filterMap], fun t ht => by
     simp [initLexState] at ht⟩

theorem lex_inv {src : String} {st' : LexState}
    (h : lexLoop src.data initLexState = .ok st') : Inv st' :=
  lexLoop_inv src.data initLexState inv_init st' h

/-- The tokens returned by `lex` are the filtered tokens of the final loop
state. -/
theorem lex_ok_elim {src : String} {toks : List Token} (h : lex src = .ok toks) :
    ∃ st', lexLoop src.data initLexState = .ok st' ∧
      toks = st'.tokens.filter (fun t => decide (t.kind ≠ TokenKind.none)) := by
  unfold lex at h
  cases he : lexLoop src.data initLexState with
  | ok st' =>
    rw [he] at h
    refine ⟨st', rfl, ?_⟩
    simpa [Except.map] using h.symm
  | error e => rw [he] at h; simp [Except.map] at h

/-- C1, counterexample.  Lexing `"x x "` yields two identifier tokens with
equal text `"x"`, yet they do not carry the identical handle: each comes
from its own `Box::leak` allocation (allocation identifiers 0 and 1), and
the lexer never consults the interning table of `src/util.rs` at all.  This
refutes the claim that equal-text identifier tokens share one deduplicated
interned handle. -/
theorem ident_tokens_not_interned_cx :
    lex "x x " = .ok [⟨.ident "x" 0, 0, 1⟩, ⟨.ident "x" 1, 2, 1⟩] ∧
      TokenKind.ident "x" 0 ≠ TokenKind.ident "x" 1 := by
  exact ⟨rfl, by decide⟩

/-- C3 (confirmed).  End-of-input gap: at end of input the scan loop
returns its state unchanged, never flushing pending accumulated text; hence
lexing `"x"` yields no tokens while lexing `"x "` yields exactly the one
identifier token `"x"`. -/
theorem end_of_input_gap :
    (∀ st : LexState, lexLoop [] st = .ok st) ∧
      lex "x" = .ok [] ∧
      lex "x " = .ok [⟨.ident "x" 0, 0, 1⟩] :=
  ⟨fun _ => rfl, rfl, rfl⟩

theorem end_of_input_gap_witness :
    lexLoop [] ⟨3, ['a'], [], 2⟩ = .ok ⟨3, ['a'], [], 2⟩ :=
  end_of_input_gap.1 ⟨3, ['a'], [], 2⟩

/-- C4, counterexample.  Lexing `"fn  x"` (two spaces, no trailing
whitespace) yields exactly one token — the keyword `fn` — not two: the
trailing identifier text `"x"` is never flushed at end of input, so no
identifier token for `"x"` exists in the output. -/
theorem whitespace_elision_cx :
    lex "fn  x" = .ok [⟨.keyword "fn" 0, 0, 2⟩] ∧
      (lex "fn  x").map List.length = .ok 1 :=
  ⟨rfl, rfl⟩

/-- C4, amended.  Lexing `"fn  x "` (two spaces between the words and a
trailing space, so the accumulator is flushed) yields exactly two tokens —
the keyword `fn` whose offset 0 resolves to line 1, column 1, and the
identifier `x` whose offset 4 resolves to line 1, column 5 — and no
whitespace token appears in the output. -/
theorem whitespace_elision_with_offsets :
    lex "fn  x " = .ok [⟨.keyword "fn" 0, 0, 2⟩, ⟨.ident "x" 1, 4, 1⟩] ∧
      get_line_info "fn  x ".data 0 = (1, 1) ∧
      get_line_info "fn  x ".data 4 = (1, 5) :=
  ⟨rfl, rfl, rfl⟩

/-- C5, counterexample.  Lexing is not total: the all-digit text
`"9999999999999999999"` (19 nines, exceeding `i64::MAX`) is classified as
an integer literal whose `parse::<i64>().unwrap()` panics, so scanning the
source `"9999999999999999999 "` crashes instead of producing tokens. -/
theorem lexing_not_total_cx :
    lex "9999999999999999999 " = .error () :=
  rfl

/-- C6, counterexample.  Lexing `"a\nbb\nccc"` produces no token for
`"ccc"` at all: the trailing text is dropped at end of input, so the output
holds exactly the identifier tokens `"a"` and `"bb"`. -/
theorem location_correctness_cx :
    lex "a\nbb\nccc" = .ok [⟨.ident "a" 0, 0, 1⟩, ⟨.ident "bb" 1, 2, 2⟩] ∧
      (lex "a\nbb\nccc").map (fun ts => ts.filterMap (fun t => tokenText t.kind)) =
        .ok ["a", "bb"] :=
  ⟨rfl, rfl⟩

/-- C6, amended.  For the source `"a\nbb\nccc\n"` (trailing newline so the
last word is flushed) the output contains the token for `"ccc"` at offset
5, which resolves to line 3, column 1, and the token for `"bb"` at offset
2, which resolves to line 2, column 1; both computed by scanning from
offset 0 counting newlines, 1-based. -/
theorem location_correctness :
    lex "a\nbb\nccc\n" =
        .ok [⟨.ident "a" 0, 0, 1⟩, ⟨.ident "bb" 1, 2, 2⟩, ⟨.ident "ccc" 2, 5, 3⟩] ∧
      get_line_info "a\nbb\nccc\n".data 5 = (3, 1) ∧
      get_line_info "a\nbb\nccc\n".data 2 = (2, 1) :=
  ⟨rfl, rfl, rfl⟩

/-- C7 (confirmed).  Classification precedence when flushing the
accumulator: `"fn"` flushes to a keyword token, `"123"` to the integer
literal 123, `"true"` and `"false"` to boolean literals, `"foo1"` to an
identifier; fat-arrow and punctuation bypass classification (`"=>"` gives
the fat-arrow token, `"("` the left parenthesis). -/
theorem classification_precedence :
    lex "fn " = .ok [⟨.keyword "fn" 0, 0, 2⟩] ∧
      lex "let " = .ok [⟨.keyword "let" 0, 0, 3⟩] ∧
      lex "match " = .ok [⟨.keyword "match" 0, 0, 5⟩] ∧
      lex "cond " = .ok [⟨.keyword "cond" 0, 0, 4⟩] ∧
      lex "itself " = .ok [⟨.keyword "itself" 0, 0, 6⟩] ∧
      lex "123 " = .ok [⟨.intLit 123, 0, 3⟩] ∧
      lex "true " = .ok [⟨.boolLit true, 0, 4⟩] ∧
      lex "false " = .ok [⟨.boolLit false, 0, 5⟩] ∧
      lex "foo1 " = .ok [⟨.ident "foo1" 0, 0, 4⟩] ∧
      lex "=>" = .ok [⟨.fatArrow, 0, 2⟩] ∧
      lex "(" = .ok [⟨.lparen, 0, 1⟩] :=
  ⟨rfl, rfl, rfl, rfl, rfl, rfl, rfl, rfl, rfl, rfl, rfl⟩

/-- C2, counterexample.  Recorded start offsets are not always the true
byte offsets: lexing `"00 x "` classifies `"00"` as the integer literal 0,
whose rendering `"0"` has length 1, so the position advances by 1 instead
of 2 and the identifier token `"x"` is recorded at offset 2 — but byte 2 of
the source is the space, and the actual `'x'` sits at byte 3. -/
theorem offset_bookkeeping_cx :
    lex "00 x " = .ok [⟨.intLit 0, 0, 1⟩, ⟨.ident "x" 1, 2, 1⟩] ∧
      "00 x ".data.get? 2 = some ' ' ∧
      "00 x ".data.get? 3 = some 'x' :=
  ⟨rfl, rfl, rfl⟩

/-- C1, amended.  Identifier (and keyword) tokens are never deduplicated:
every flush of the accumulator leaks a fresh allocation, so the allocation
identifiers carried by the lexer's output are strictly increasing — in
particular, two identifier tokens never share a handle, even when their
texts are equal (they compare equal only by text content, as the derived
`PartialEq` on `TokenKind` compares the `&str` contents). -/
theorem ident_allocations_fresh (src : String) (toks : List Token)
    (h : lex src = .ok toks) : List.Pairwise (· < ·) (refs toks) := by
  obtain ⟨st', he, rfl⟩ := lex_ok_elim h
  exact List.Pairwise.sublist ((List.filter_sublist _).filterMap _) (lex_inv he).refsSorted

theorem ident_allocations_fresh_witness :
    lex "x x " = .ok [⟨.ident "x" 0, 0, 1⟩, ⟨.ident "x" 1, 2, 1⟩] ∧
      List.Pairwise (· < ·) (refs [⟨.ident "x" 0, 0, 1⟩, ⟨.ident "x" 1, 2, 1⟩]) :=
  ⟨rfl, ident_allocations_fresh "x x " [⟨.ident "x" 0, 0, 1⟩, ⟨.ident "x" 1, 2, 1⟩] rfl⟩

/-- C2, amended.  Offset bookkeeping: every token emitted during the scan
(including discardable whitespace markers) advances the running byte
position by exactly its classified length — the final token list is chained
from position 0 to the final position, each token starting where the
previous one ended with its stored length equal to its kind's classified
length.  (The recorded offsets equal the true byte offsets only when every
classified length coincides with the source byte length; see the
counterexample.) -/
theorem offset_bookkeeping (src : String) (st' : LexState)
    (h : lexLoop src.data initLexState = .ok st') : chained 0 st'.tokens st'.pos :=
  (lex_inv h).chain

theorem offset_bookkeeping_witness :
    chained 0 [⟨.ident "x" 0, 0, 1⟩, ⟨.none, 1, 1⟩] 2 :=
  offset_bookkeeping "x " ⟨2, [], [⟨.ident "x" 0, 0, 1⟩, ⟨.none, 1, 1⟩], 1⟩ rfl

/-- C5, amended.  Lexing never rejects input and classifies every non-punctuation
character sequence (digits followed by letters become a single identifier,
e.g. `"1a"`), but it is not total: the `unwrap` on integer parsing panics
when an all-digit accumulated text exceeds `i64::MAX`.  For every source
whose runs of consecutive decimal digits are at most 18 characters long,
tokenization succeeds. -/
theorem lexing_total_short_runs :
    (∀ src : String, runsOkB src.data = true → ∃ toks, lex src = .ok toks) ∧
      lex "1a " = .ok [⟨.ident "1a" 0, 0, 2⟩] := by
  refine ⟨?_, rfl⟩
  intro src h
  obtain ⟨st', h'⟩ := lexLoop_total src.data initLexState h
    (by intro _; simpa [initLexState] using runsOk_head h)
  exact ⟨_, by unfold lex; rw [h']; rfl⟩

theorem lexing_total_short_runs_witness :
    runsOkB "123 456".data = true ∧ ∃ toks, lex "123 456" = .ok toks :=
  ⟨by decide, lexing_total_short_runs.1 "123 456" (by decide)⟩

/-- C10 (confirmed).  Integer literals are never negative: whenever lexing
succeeds, every integer-literal token holds a value at least 0, since text
is classified as an integer literal only when all its characters are
decimal digits; a leading minus sign is never part of an integer literal,
so `"-5"` lexes to an identifier. -/
theorem int_literals_nonneg :
    (∀ (src : String) (toks : List Token), lex src = .ok toks →
        ∀ t ∈ toks, ∀ n : Int, t.kind = .intLit n → 0 ≤ n) ∧
      lex "-5 " = .ok [⟨.ident "-5" 0, 0, 2⟩] := by
  refine ⟨?_, rfl⟩
  intro src toks h t ht n hk
  obtain ⟨st', he, rfl⟩ := lex_ok_elim h
  exact (lex_inv he).intNonneg t (List.mem_of_mem_filter ht) n hk

theorem int_literals_nonneg_witness :
    lex "5 " = .ok [⟨.intLit 5, 0, 1⟩] ∧ (0 : Int) ≤ 5 :=
  ⟨rfl, int_literals_nonneg.1 "5 " [⟨.intLit 5, 0, 1⟩] rfl ⟨.intLit 5, 0, 1⟩
    (List.mem_singleton.mpr rfl) 5 rfl⟩

/-- C9 (confirmed).  For every token of the lexer's output, the contextual
excerpt (when its line lookup succeeds, i.e. the `unwrap` does not panic)
is the `path:line:column` header, then the source line, then a final line
of exactly `column - 1` spaces followed by exactly as many carets as the
classified byte length of the token's text (the stored span length always
equals the kind's classified length). -/
theorem caret_line (src path : String) (toks : List Token) (t : Token) (s : String)
    (h : lex src = .ok toks) (ht : t ∈ toks) (hs : in_context path src t = some s) :
    ∃ lineSrc,
      (rustLines src.data).get? ((get_line_info src.data t.start).1 - 1) = some lineSrc ∧
        s = path ++ ":" ++ toString (get_line_info src.data t.start).1 ++ ":" ++
            toString (get_line_info src.data t.start).2 ++ "\n" ++
            String.mk lineSrc ++ "\n" ++
            String.mk (List.replicate ((get_line_info src.data t.start).2 - 1) ' ') ++
            String.mk (List.replicate t.kind.length '^') := by
  obtain ⟨st', he, rfl⟩ := lex_ok_elim h
  have hlen : t.len = t.kind.length :=
    chained_len (lex_inv he).chain t (List.mem_of_mem_filter ht)
  unfold in_context at hs
  obtain ⟨lineSrc, hget, rfl⟩ := Option.map_eq_some'.mp hs
  exact ⟨lineSrc, hget, by rw [hlen]⟩

theorem symbol_eq_of (s1 s2 : Symbol) (hn : s1.name = s2.name)
    (hx : s1.index = s2.index) : s1 = s2 := by
  cases s1
  cases s2
  simp_all

theorem lookupIdx_get {l : List String} {s : String} {i : Nat}
    (h : lookupIdx l s = some i) : l.get? i = some s := by
  induction l generalizing i with
  | nil => simp [lookupIdx] at h
  | cons t ts ih =>
    simp only [lookupIdx] at h
    split at h
    · rename_i hts
      injection h with h
      subst h
      simpa using hts
    · obtain ⟨j, hj, rfl⟩ := Option.map_eq_some'.mp h
      simpa using ih hj

theorem lookupIdx_append {l : List String} {s : String} {i : Nat}
    (h : lookupIdx l s = some i) (ext : List String) :
    lookupIdx (l ++ ext) s = some i := by
  induction l generalizing i with
  | nil => simp [lookupIdx] at h
  | cons t ts ih =>
    rw [List.cons_append]
    simp only [lookupIdx] at h ⊢
    split at h
    · rename_i hts
      rw [if_pos hts]
      exact h
    · rename_i hts
      rw [if_neg hts]
      obtain ⟨j, hj, rfl⟩ := Option.map_eq_some'.mp h
      rw [ih hj]
      rfl

theorem lookupIdx_none_append {l : List String} {s : String}
    (h : lookupIdx l s = Option.none) : lookupIdx (l ++ [s]) s = some l.length := by
  induction l with
  | nil => simp [lookupIdx]
  | cons t ts ih =>
    rw [List.cons_append]
    simp only [lookupIdx] at h ⊢
    split at h
    · exact absurd h (by simp)
    · rename_i hts
      rw [if_neg hts]
      have hnone : lookupIdx ts s = Option.none := by
        cases he : lookupIdx ts s with
        | none => rfl
        | some j => rw [he] at h; simp at h
      rw [ih hnone]
      simp

theorem intern_spec (syms : List String) (s : String) :
    (intern syms s).1.name = s ∧
      lookupIdx (intern syms s).2 (intern syms s).1.name = some (intern syms s).1.index ∧
      ∃ ext, (intern syms s).2 = syms ++ ext := by
  unfold intern
  cases he : lookupIdx syms s with
  | some i => exact ⟨rfl, he, [], by simp⟩
  | none => exact ⟨rfl, lookupIdx_none_append he, [s], rfl⟩

theorem internChain_ext (syms ts : List String) :
    ∃ ext, (internChain syms ts).2 = syms ++ ext := by
  induction ts generalizing syms with
  | nil => exact ⟨[], by simp [internChain]⟩
  | cons s ss ih =>
    obtain ⟨e1, he1⟩ := (intern_spec syms s).2.2
    obtain ⟨e2, he2⟩ := ih (intern syms s).2
    refine ⟨e1 ++ e2, ?_⟩
    rw [show (internChain syms (s :: ss)).2 = (internChain (intern syms s).2 ss).2 from rfl,
        he2, he1, List.append_assoc]

theorem internChain_lookup (syms ts : List String) :
    ∀ sym ∈ (internChain syms ts).1,
      lookupIdx (internChain syms ts).2 sym.name = some sym.index := by
  induction ts generalizing syms with
  | nil => intro sym hm; simp [internChain] at hm
  | cons s ss ih =>
    intro sym hm
    rw [show (internChain syms (s :: ss)).1
          = (intern syms s).1 :: (internChain (intern syms s).2 ss).1 from rfl] at hm
    rw [show (internChain syms (s :: ss)).2
          = (internChain (intern syms s).2 ss).2 from rfl]
    rcases List.mem_cons.mp hm with rfl | hm
    · obtain ⟨hname, hlook, _⟩ := intern_spec syms s
      obtain ⟨ext, hext⟩ := internChain_ext (intern syms s).2 ss
      rw [hext]
      exact lookupIdx_append hlook ext
    · exact ih (intern syms s).2 sym hm

/-- C8 (confirmed).  Interner singleton-equality: over any run of interning
calls starting from the empty global table, two returned Symbols have equal
text if and only if they are the same Symbol, if and only if they have the
same index — interning a text again, however many other texts are interned
in between, returns the same handle, and distinct texts always receive
distinct indices; the table is append-only, so a Symbol's text and index
never change. -/
theorem interner_singleton_equality (texts : List String) (i j : Nat)
    (hi : i < (internAll texts).length) (hj : j < (internAll texts).length) :
    (((internAll texts).get ⟨i, hi⟩).name = ((internAll texts).get ⟨j, hj⟩).name ↔
        (internAll texts).get ⟨i, hi⟩ = (internAll texts).get ⟨j, hj⟩) ∧
      (((internAll texts).get ⟨i, hi⟩).name = ((internAll texts).get ⟨j, hj⟩).name ↔
        ((internAll texts).get ⟨i, hi⟩).index = ((internAll texts).get ⟨j, hj⟩).index) := by
  have hmi : (internAll texts).get ⟨i, hi⟩ ∈ (internChain [] texts).1 :=
    List.get_mem _ _ _
  have hmj : (internAll texts).get ⟨j, hj⟩ ∈ (internChain [] texts).1 :=
    List.get_mem _ _ _
  have hli := internChain_lookup [] texts _ hmi
  have hlj := internChain_lookup [] texts _ hmj
  have hidx : ((internAll texts).get ⟨i, hi⟩).name = ((internAll texts).get ⟨j, hj⟩).name →
      ((internAll texts).get ⟨i, hi⟩).index = ((internAll texts).get ⟨j, hj⟩).index := by
    intro hn
    rw [hn] at hli
    rw [hli] at hlj
    injection hlj
  have hname : ((internAll texts).get ⟨i, hi⟩).index = ((internAll texts).get ⟨j, hj⟩).index →
      ((internAll texts).get ⟨i, hi⟩).name = ((internAll texts).get ⟨j, hj⟩).name := by
    intro hx
    have g1 := lookupIdx_get hli
    have g2 := lookupIdx_get hlj
    rw [hx] at g1
    rw [g1] at g2
    injection g2
  constructor
  · constructor
    · intro hn
      exact symbol_eq_of _ _ hn (hidx hn)
    · intro he
      rw [he]
  · exact ⟨hidx, hname⟩

theorem interner_singleton_equality_witness :
    (((internAll ["a", "b", "a"]).get ⟨0, by decide⟩).name
        = ((internAll ["a", "b", "a"]).get ⟨2, by decide⟩).name ↔
      (internAll ["a", "b", "a"]).get ⟨0, by decide⟩
        = (internAll ["a", "b", "a"]).get ⟨2, by decide⟩) ∧
    (((internAll ["a", "b", "a"]).get ⟨0, by decide⟩).name
        = ((internAll ["a", "b", "a"]).get ⟨2, by decide⟩).name ↔
      ((internAll ["a", "b", "a"]).get ⟨0, by decide⟩).index
        = ((internAll ["a", "b", "a"]).get ⟨2, by decide⟩).index) :=
  interner_singleton_equality ["a", "b", "a"] 0 2 (by decide) (by decide)

theorem caret_line_witness :
    ∃ lineSrc,
      (rustLines "x ".data).get?
          ((get_line_info "x ".data (Token.mk (.ident "x" 0) 0 1).start).1 - 1) = some lineSrc ∧
        "p:1:1\nx \n^" = "p" ++ ":" ++
            toString (get_line_info "x ".data (Token.mk (.ident "x" 0) 0 1).start).1 ++ ":" ++
            toString (get_line_info "x ".data (Token.mk (.ident "x" 0) 0 1).start).2 ++ "\n" ++
            String.mk lineSrc ++ "\n" ++
            String.mk (List.replicate
              ((get_line_info "x ".data (Token.mk (.ident "x" 0) 0 1).start).2 - 1) ' ') ++
            String.mk (List.replicate (Token.mk (.ident "x" 0) 0 1).kind.length '^') :=
  caret_line "x " "p" [⟨.ident "x" 0, 0, 1⟩] ⟨.ident "x" 0, 0, 1⟩ "p:1:1\nx \n^" rfl
    (List.mem_singleton.mpr rfl) rfl

end SndLang
